import Mathlib

/-!
Formal model of `py/sync_examples.py`, the example-documentation generator:
parsing annotated example files, keyword extraction, markdown rendering,
manifest loading and the keyword (tag) index.  Python `str` values are
modelled as `List Char`; each definition mirrors one Python function.
-/

/-- Characters stripped by Python `str.strip()` (ASCII whitespace). -/
def pySpaceChar (c : Char) : Bool :=
  c = ' ' || c = '\t' || c = '\n' || c = '\r' || c = '\x0b' || c = '\x0c'

/-- Line-break characters recognised by Python `str.splitlines()`. -/
def lineBreakChar (c : Char) : Bool :=
  c = '\n' || c = '\r' || c = '\x0b' || c = '\x0c' || c = '\x1c' || c = '\x1d' ||
  c = '\x1e' || c = '\x85' || c = '\u2028' || c = '\u2029'

/-- Strip characters satisfying `p` from both ends (Python `str.strip(chars)`). -/
def stripChars (p : Char → Bool) (l : List Char) : List Char :=
  ((l.dropWhile p).reverse.dropWhile p).reverse

/-- Python `str.strip()` with no argument. -/
def pyStrip (l : List Char) : List Char :=
  stripChars pySpaceChar l

/-- `strip_comment(line)`: `line.strip(" #")`. -/
def strip_comment (l : List Char) : List Char :=
  stripChars (fun c => c = ' ' || c = '#') l

/-- Prepend a character to the first line of a line list (one new line when
the list is empty). -/
def consLine (c : Char) : List (List Char) → List (List Char)
  | [] => [[c]]
  | l :: ls => (c :: l) :: ls

/-- Python `str.splitlines()`: split at line breaks, `\r\n` counting as one
break, with no trailing empty line for a trailing break. -/
def pySplitlines : List Char → List (List Char)
  | [] => []
  | [c] => if lineBreakChar c then [[]] else [[c]]
  | c :: c2 :: cs =>
    if c = '\r' ∧ c2 = '\n' then [] :: pySplitlines cs
    else if lineBreakChar c then [] :: pySplitlines (c2 :: cs)
    else consLine c (pySplitlines (c2 :: cs))

/-- Python `str.split(sep)` for a one-character separator (no maxsplit):
always returns at least one (possibly empty) piece. -/
def splitChar (sep : Char) : List Char → List (List Char)
  | [] => [[]]
  | c :: cs =>
    if c = sep then [] :: splitChar sep cs
    else
      match splitChar sep cs with
      | [] => [[c]]
      | l :: ls => (c :: l) :: ls

/-- Python `sep.join(pieces)`. -/
def joinSep (sep : List Char) : List (List Char) → List Char
  | [] => []
  | [l] => l
  | l :: l2 :: ls => l ++ sep ++ joinSep sep (l2 :: ls)

/-- Does `l` begin with the sequence `sep`?  (Python `str.startswith`.) -/
def startsWithSeq (sep l : List Char) : Bool :=
  l.take sep.length == sep

/-- Python `str.split(sep, maxsplit=1)` restricted to the information the
caller uses: `some (before, after)` split at the first occurrence of the
substring `sep`, or `none` when `sep` does not occur (in which case Python's
`parts[1]` raises). -/
def pySplitOnce (sep : List Char) : List Char → Option (List Char × List Char)
  | [] => if startsWithSeq sep [] then some ([], ([] : List Char).drop sep.length) else none
  | c :: cs =>
    if startsWithSeq sep (c :: cs) then some ([], (c :: cs).drop sep.length)
    else
      match pySplitOnce sep cs with
      | none => none
      | some (a, b) => some (c :: a, b)

/-- Python `str.replace(old, new)` for one-character arguments. -/
def pyReplaceChar (a b : Char) (l : List Char) : List Char :=
  l.map (fun c => if c = a then b else c)

/-- Index of the last occurrence of `c` in `l`, if any. -/
def lastIdxOf (c : Char) : List Char → Option Nat
  | [] => none
  | x :: xs =>
    match lastIdxOf c xs with
    | some i => some (i + 1)
    | none => if x = c then some 0 else none

/-- `os.path.splitext`: split off the extension at the last dot, unless that
dot lies before the last path separator or the whole basename up to it
consists of dots. -/
def pySplitext (l : List Char) : List Char × List Char :=
  let sepIdx : Int :=
    match lastIdxOf '/' l with
    | some i => (i : Int)
    | none => -1
  match lastIdxOf '.' l with
  | none => (l, [])
  | some d =>
    if sepIdx < (d : Int) then
      let base := (l.take d).drop (sepIdx + 1).toNat
      if base.any (fun c => !(c = '.')) then (l.take d, l.drop d) else (l, [])
    else (l, [])

/-- Slug derivation performed in `Example.__init__`: drop the extension,
replace underscores by hyphens. -/
def derive_slug (filename : List Char) : List Char :=
  pyReplaceChar '_' '-' (pySplitext filename).1

/-- The `Example` record produced by the parser. -/
structure Example where
  name : List Char
  slug : List Char
  filename : List Char
  title : List Char
  subtitle : List Char
  description : List Char
  keywords : List (List Char)
  code : List Char
deriving DecidableEq

/-- `Example.__init__`: derive `name`, `slug` and `subtitle` from the given
constructor arguments. -/
def Example.make (filename title description : List Char)
    (keywords : List (List Char)) (code : List Char) : Example :=
  let name := (pySplitext filename).1
  { name := name
    slug := pyReplaceChar '_' '-' name
    filename := filename
    title := title
    subtitle := pyStrip ((splitChar '\n' description).headD [])
    description := description
    keywords := keywords
    code := code }

/-- `get_keywords_if_available(line)`: split the line on commas and strip each
token; return no keywords when the line contains a period or some token
contains a space. -/
def get_keywords_if_available (line : List Char) : List (List Char) :=
  let keywords := (splitChar ',' line).map pyStrip
  let period_in_line := line.contains '.'
  let spaces_in_keywords := keywords.any (fun x => x.contains ' ')
  if period_in_line || spaces_in_keywords then [] else keywords

/-- `load_example(filename)` applied to the file's text: split on the first
`---`, strip and split the header into lines, strip comment markers, read the
keyword candidate from the second-to-last description line.  `none` models the
exceptions Python raises on a missing separator or a too-short header. -/
def load_example (filename contents : List Char) : Option Example :=
  match pySplitOnce ("---").data contents with
  | none => none
  | some (pre, post) =>
    let header := pySplitlines (pyStrip pre)
    let code := pyStrip post
    match header with
    | [] => none
    | h0 :: rest =>
      let title := strip_comment h0
      let description := rest.map strip_comment
      if 2 ≤ description.length then
        some (Example.make filename title (joinSep ("\n").data description)
          (get_keywords_if_available (description.getD (description.length - 2) [])) code)
      else none

/-- The `header` local of `Example.to_md`. -/
def md_header (e : Example) : List Char :=
  if e.keywords.isEmpty then
    ("---\ntitle: ").data ++ e.title ++ ("\n---\n        ").data
  else
    ("---\ntitle: ").data ++ e.title ++ ("\nkeywords:\n").data ++
      joinSep ("\n").data (e.keywords.map (fun x => ("  - ").data ++ x)) ++
      ("\n---\n\nimport useBaseUrl from \x27@docusaurus/useBaseUrl\x27;\n\n        ").data

/-- The `footer` local of `Example.to_md`. -/
def md_footer (e : Example) : List Char :=
  if e.keywords.isEmpty then []
  else
    ("\n\n**Tags**:  ").data ++
      joinSep ("  ").data (e.keywords.map (fun k =>
        ("<a href=\x7buseBaseUrl(\x27docs/examples/examples-tags#").data ++ k ++
          ("\x27)\x7d>").data ++ k ++ ("</a>").data)) ++
      ("\n\n            ").data

/-- The `body` local of `Example.to_md`. -/
def md_body (e : Example) : List Char :=
  ("\n\n").data ++ e.description ++
    ("\n\n<div className=\x27cover\x27 style=\x7b\x7b backgroundImage: \x27url(\x27 + require(\x27./assets/").data ++
    e.slug ++ (".png\x27).default + \x27)\x27 \x7d\x7d />\n\n```py\n").data ++ e.code ++
    ("\n```\n        ").data

/-- `Example.to_md`: header, body and footer concatenated. -/
def to_md (e : Example) : List Char :=
  md_header e ++ md_body e ++ md_footer e

/-- One entry of the table of contents built by `make_toc`. -/
def toc_entry (e : Example) : List Char :=
  ("- <a href=\x7buseBaseUrl(\x27docs/examples/").data ++ e.slug ++
    ("\x27)\x7d>").data ++ e.title ++ ("</a>: ").data ++ e.subtitle

/-- `make_toc(examples)`. -/
def make_toc (examples : List Example) : List Char :=
  ("---\ntitle: All Examples\nslug: /examples/all\n---\n\nimport useBaseUrl from \x27@docusaurus/useBaseUrl\x27;\n\n").data ++
    joinSep ("\n\n").data (examples.map toc_entry)

/-- `make_keyword_group(keyword, examples)`. -/
def make_keyword_group (keyword : List Char) (examples : List Example) : List Char :=
  ("### ").data ++ keyword ++ ("\n").data ++
    joinSep ("  ").data (examples.map (fun e =>
      ("<a href=\x7buseBaseUrl(\x27docs/examples/").data ++ e.slug ++
        ("\x27)\x7d>").data ++ e.title ++ ("</a>").data)) ++
    ("\n").data

/-- All keywords of a list of examples, in scan order (the sequence of
appends the `index_examples` loop performs). -/
def allKeywords : List Example → List (List Char)
  | [] => []
  | e :: es => e.keywords ++ allKeywords es

/-- The `defaultdict` bucket for key `k`: every example appended once per
occurrence of `k` in its keyword list, in scan order. -/
def bucketOf (k : List Char) : List Example → List Example
  | [] => []
  | e :: es => (e.keywords.filter (fun k2 => k2 == k)).map (fun _ => e) ++ bucketOf k es

/-- First-occurrence deduplication: the insertion order of the dict keys. -/
def dedupFirst (seen : List (List Char)) : List (List Char) → List (List Char)
  | [] => []
  | k :: ks => if seen.contains k then dedupFirst seen ks else k :: dedupFirst (k :: seen) ks

/-- Python `<` on strings: lexicographic comparison by code point. -/
def pyStrLt : List Char → List Char → Bool
  | [], [] => false
  | [], _ :: _ => true
  | _ :: _, [] => false
  | a :: as, b :: bs => if a < b then true else if b < a then false else pyStrLt as bs

/-- Insert one `(keyword, bucket)` item into a list sorted by key. -/
def insertItem (p : List Char × List Example) :
    List (List Char × List Example) → List (List Char × List Example)
  | [] => [p]
  | q :: qs => if pyStrLt q.1 p.1 then q :: insertItem p qs else p :: q :: qs

/-- Insertion sort of `(keyword, bucket)` items by key, modelling Python's
`sorted` (keys are distinct, so only the keys matter). -/
def sortItems : List (List Char × List Example) → List (List Char × List Example)
  | [] => []
  | p :: ps => insertItem p (sortItems ps)

/-- `index_examples(examples)`: the dict's items (keys in first-insertion
order, each with its bucket), sorted by key. -/
def index_examples (examples : List Example) : List (List Char × List Example) :=
  let keys := dedupFirst [] (allKeywords examples)
  sortItems (keys.map (fun k => (k, bucketOf k examples)))

/-- `make_examples_by_keyword(examples)`. -/
def make_examples_by_keyword (examples : List Example) : List Char :=
  ("---\ntitle: Tags\n---\n\nimport useBaseUrl from \x27@docusaurus/useBaseUrl\x27;\n").data ++
    ("\n").data ++
    joinSep ("\n\n").data ((index_examples examples).map (fun p => make_keyword_group p.1 p.2))

/-- The manifest comprehension in `main`: strip each raw line, keep those
whose stripped form does not start with `#`. -/
def loadManifest (lines : List (List Char)) : List (List Char) :=
  (lines.filter (fun l => !(startsWithSeq ("#").data (pyStrip l)))).map pyStrip

/-- The parsing stage of `main`: parse each manifest entry in order, with
`cts` supplying each filename's file text (modelling the file reads). -/
def processExamples (cts : List Char → List Char) (lines : List (List Char)) :
    List (Option Example) :=
  (loadManifest lines).map (fun fn => load_example fn (cts fn))

/-- `make_gallery_thumbnail(e)`. -/
def make_gallery_thumbnail (e : Example) : List Char :=
  ("<a class=\x27thumbnail\x27 href=\x7buseBaseUrl(\x27docs/examples/").data ++ e.slug ++
    ("\x27)\x7d><div style=\x7b\x7bbackgroundImage:\x27url(\x27 + require(\x27./assets/").data ++
    e.slug ++ (".png\x27).default + \x27)\x27\x7d\x7d></div>").data ++ e.title ++ ("</a>").data

/-- `make_gallery(examples)`. -/
def make_gallery (examples : List Example) : List Char :=
  ("---\ntitle: Gallery\nslug: /examples\n---\n\nimport useBaseUrl from \x27@docusaurus/useBaseUrl\x27;\n").data ++
    ("\n").data ++ joinSep ("\n\n").data (examples.map make_gallery_thumbnail)

/-- Modelled from the spec: re-extract the fenced code block from a rendered
page (the property "parsing then rendering then re-extracting the code block";
there is no such function in the source).  Following CommonMark, the block is
the run of lines strictly between the first ```py fence line and the next
closing ``` fence line. -/
def extractFence (page : List Char) : Option (List Char) :=
  match (pySplitlines page).dropWhile (fun l2 => !(l2 == ("```py").data)) with
  | [] => none
  | _ :: rest =>
    if rest.any (fun l2 => l2 == ("```").data) then
      some (joinSep ("\n").data (rest.takeWhile (fun l2 => !(l2 == ("```").data))))
    else none

/-- A character list containing no line-break character at all. -/
def breakFree (l : List Char) : Prop :=
  ∀ c ∈ l, lineBreakChar c = false

/-- A character list whose only line-break character is `\n`. -/
def nlOnly (l : List Char) : Prop :=
  ∀ c ∈ l, lineBreakChar c = true → c = '\n'

/-- Concrete example with keywords `x` and `y`, used for the tag-index claim. -/
def exKw1 : Example :=
  Example.make ("e1.py").data ("E1").data ("d1").data [("x").data, ("y").data] ("c1").data

/-- Concrete example with keyword `y` only, used for the tag-index claim. -/
def exKw2 : Example :=
  Example.make ("e2.py").data ("E2").data ("d2").data [("y").data] ("c2").data

/-- Concrete example titled `Zebra`, listed first in the TOC claim. -/
def exZebra : Example :=
  Example.make ("zebra.py").data ("Zebra").data ("dz").data [] ("cz").data

/-- Concrete example titled `Apple`, listed second in the TOC claim. -/
def exApple : Example :=
  Example.make ("apple.py").data ("Apple").data ("da").data [] ("ca").data

section BasicLemmas

/-- `splitChar` never returns the empty list of pieces. -/
theorem splitChar_ne_nil (sep : Char) : ∀ l : List Char, splitChar sep l ≠ []
  | [] => by simp [splitChar]
  | c :: cs => by
    simp only [splitChar]
    split
    · simp
    · cases h : splitChar sep cs <;> simp

/-- Joining the pieces of `splitChar` with the separator restores the input. -/
theorem joinSep_splitChar (sep : Char) : ∀ l : List Char,
    joinSep [sep] (splitChar sep l) = l
  | [] => by simp [splitChar, joinSep]
  | c :: cs => by
    have ih := joinSep_splitChar sep cs
    simp only [splitChar]
    split
    · rename_i hc
      subst hc
      cases h : splitChar c cs with
      | nil => exact absurd h (splitChar_ne_nil c cs)
      | cons l ls =>
        rw [h] at ih
        simp [joinSep, ih]
    · rename_i hc
      cases h : splitChar sep cs with
      | nil => exact absurd h (splitChar_ne_nil sep cs)
      | cons l ls =>
        rw [h] at ih
        cases ls with
        | nil => simpa [joinSep] using congrArg (c :: ·) ih
        | cons l2 ls2 => simpa [joinSep] using congrArg (c :: ·) ih

/-- A list free of the separator is a single piece. -/
theorem splitChar_eq_single {sep : Char} : ∀ {l : List Char},
    (∀ x ∈ l, x ≠ sep) → splitChar sep l = [l]
  | [], _ => rfl
  | c :: cs, h => by
    have hc : c ≠ sep := h c (by simp)
    have ih := splitChar_eq_single (l := cs) (fun x hx => h x (by simp [hx]))
    simp [splitChar, hc, ih]

/-- Splitting after appending a separator splits off the left pieces. -/
theorem splitChar_append_sep {sep : Char} : ∀ {a : List Char} (b : List Char),
    (∀ x ∈ a, x ≠ sep) → splitChar sep (a ++ sep :: b) = a :: splitChar sep b
  | [], b, _ => by simp [splitChar]
  | c :: cs, b, h => by
    have hc : c ≠ sep := h c (by simp)
    have ih := splitChar_append_sep (a := cs) b (fun x hx => h x (by simp [hx]))
    simp [splitChar, hc, ih]

/-- `splitChar` of a separator-join recovers the pieces when no piece
contains the separator. -/
theorem splitChar_joinSep {sep : Char} : ∀ {L : List (List Char)},
    L ≠ [] → (∀ l ∈ L, ∀ x ∈ l, x ≠ sep) → splitChar sep (joinSep [sep] L) = L
  | [], h, _ => absurd rfl h
  | [l], _, h => by
    simp only [joinSep]
    exact splitChar_eq_single (h l (by simp))
  | l :: l2 :: L, _, h => by
    have ih := splitChar_joinSep (L := l2 :: L) (by simp)
      (fun p hp => h p (List.mem_cons_of_mem _ hp))
    simp only [joinSep]
    rw [List.append_assoc]
    exact (splitChar_append_sep _ (h l (by simp))).trans (by simp [ih])

/-- Every character of a stripped list occurs in the original list. -/
theorem mem_stripChars {p : Char → Bool} {l : List Char} {c : Char}
    (h : c ∈ stripChars p l) : c ∈ l := by
  unfold stripChars at h
  rw [List.mem_reverse] at h
  have h1 := (List.dropWhile_sublist p (l := (l.dropWhile p).reverse)).mem h
  rw [List.mem_reverse] at h1
  exact (List.dropWhile_sublist p (l := l)).mem h1

/-- Every character of a `splitChar` piece occurs in the input. -/
theorem mem_splitChar {sep : Char} : ∀ {l : List Char} {piece : List Char},
    piece ∈ splitChar sep l → ∀ c ∈ piece, c ∈ l
  | [], piece, hp, c, hc => by
    simp [splitChar] at hp
    subst hp
    simp at hc
  | x :: xs, piece, hp, c, hc => by
    simp only [splitChar] at hp
    split at hp
    · rcases List.mem_cons.1 hp with h | h
      · subst h; simp at hc
      · exact List.mem_cons_of_mem _ (mem_splitChar h c hc)
    · rcases hx : splitChar sep xs with _ | ⟨l, ls⟩
      · exact absurd hx (splitChar_ne_nil sep xs)
      · rw [hx] at hp
        rcases List.mem_cons.1 hp with h | h
        · subst h
          rcases List.mem_cons.1 hc with h | h
          · simp [h]
          · exact List.mem_cons_of_mem _
              (@mem_splitChar sep xs l (by rw [hx]; simp) c h)
        · exact List.mem_cons_of_mem _
            (@mem_splitChar sep xs piece
              (by rw [hx]; exact List.mem_cons_of_mem _ h) c hc)

/-- `List.contains` being `false` means no member is equal. -/
theorem forall_ne_of_contains_eq_false {l : List Char} {c : Char}
    (h : l.contains c = false) : ∀ x ∈ l, x ≠ c := by
  intro x hx he
  subst he
  rw [List.contains, List.elem_eq_mem, decide_eq_false_iff_not] at h
  exact h hx

end BasicLemmas


section SlugLemmas

/-- `lastIdxOf` finds nothing when the character does not occur. -/
theorem lastIdxOf_eq_none {c : Char} : ∀ {l : List Char},
    (∀ x ∈ l, x ≠ c) → lastIdxOf c l = none
  | [], _ => rfl
  | x :: xs, h => by
    have ih := lastIdxOf_eq_none (l := xs) (fun y hy => h y (List.mem_cons_of_mem _ hy))
    simp [lastIdxOf, ih, h x (by simp)]

/-- Replacing underscores leaves no underscore behind. -/
theorem pyReplaceChar_no_underscore (l : List Char) :
    ∀ x ∈ pyReplaceChar '_' '-' l, x ≠ '_' := by
  intro x hx
  simp only [pyReplaceChar, List.mem_map] at hx
  obtain ⟨c, _, hcx⟩ := hx
  by_cases h : c = '_'
  · rw [if_pos h] at hcx
    subst hcx
    decide
  · rw [if_neg h] at hcx
    subst hcx
    exact h

/-- Replacing underscores in an underscore-free list changes nothing. -/
theorem pyReplaceChar_eq_self : ∀ {l : List Char},
    (∀ x ∈ l, x ≠ '_') → pyReplaceChar '_' '-' l = l
  | [], _ => rfl
  | x :: xs, h => by
    have ih := pyReplaceChar_eq_self (l := xs) (fun y hy => h y (List.mem_cons_of_mem _ hy))
    simp only [pyReplaceChar, List.map_cons] at ih ⊢
    rw [if_neg (h x (by simp)), ih]

end SlugLemmas

/-- C9 (corrected): slug derivation is a pure function of the filename
(`"my_example.py"` gives `"my-example"`, and `Example.make` derives `name` and
`slug` deterministically from `filename`); re-derivation is idempotent
provided the derived slug contains no dot (for `"a.b.py"` the slug is
`"a.b"` and re-derivation gives `"a"`, so unconditional idempotence fails). -/
theorem c9_slug_derivation :
    derive_slug ("my_example.py").data = ("my-example").data ∧
    (∀ filename title description keywords code,
      (Example.make filename title description keywords code).slug = derive_slug filename ∧
      (Example.make filename title description keywords code).name = (pySplitext filename).1) ∧
    (∀ filename : List Char, (derive_slug filename).contains '.' = false →
      derive_slug (derive_slug filename) = derive_slug filename) := by
  refine ⟨by decide, fun f t d k c => ⟨rfl, rfl⟩, ?_⟩
  intro f h
  have hnd := forall_ne_of_contains_eq_false h
  have hext : pySplitext (derive_slug f) = (derive_slug f, []) := by
    simp [pySplitext, lastIdxOf_eq_none hnd]
  calc derive_slug (derive_slug f)
      = pyReplaceChar '_' '-' (pySplitext (derive_slug f)).1 := rfl
    _ = pyReplaceChar '_' '-' (derive_slug f) := by rw [hext]
    _ = derive_slug f := pyReplaceChar_eq_self (pyReplaceChar_no_underscore _)

/-- C9 witness: the idempotence branch applied to the dot-free filename
`my_example.py`. -/
theorem c9_slug_derivation_witness :
    derive_slug (derive_slug ("my_example.py").data) = derive_slug ("my_example.py").data :=
  c9_slug_derivation.2.2 (("my_example.py").data) (by decide)

/-- C9 counterexample: for the filename `a.b.py` the derived slug is `a.b`,
and re-deriving from it gives `a`, so derivation is not idempotent as the
claim states. -/
theorem c9_idempotence_counterexample :
    derive_slug (derive_slug ("a.b.py").data) ≠ derive_slug ("a.b.py").data := by decide

/-- C3 (confirmed): keyword detection on the candidate tag line: `"a, b, c"`
gives `[a, b, c]` in order; any line containing a period gives `[]`; any line
with a comma-split, stripped token containing a space gives `[]`. -/
theorem c3_keyword_detection :
    get_keywords_if_available (("a, b, c").data) = [("a").data, ("b").data, ("c").data] ∧
    (∀ line : List Char, line.contains '.' = true →
      get_keywords_if_available line = []) ∧
    (∀ line : List Char,
      ((splitChar ',' line).map pyStrip).any (fun x => x.contains ' ') = true →
      get_keywords_if_available line = []) := by
  refine ⟨by decide, ?_, ?_⟩
  · intro line h
    simp only [get_keywords_if_available, h, Bool.true_or, if_true]
  · intro line h
    simp only [get_keywords_if_available, h, Bool.or_true, if_true]

/-- C3 witness: the period rule on `"This is a sentence."` and the
internal-space rule on `"foo bar, baz"`. -/
theorem c3_keyword_detection_witness :
    get_keywords_if_available (("This is a sentence.").data) = [] ∧
    get_keywords_if_available (("foo bar, baz").data) = [] :=
  ⟨c3_keyword_detection.2.1 _ (by decide), c3_keyword_detection.2.2 _ (by decide)⟩

/-- C4 (corrected): parsing fails exactly when the separator substring `---`
is absent or the stripped header region has fewer than THREE lines (the code
reads the second-to-last description line, so it needs a title plus at least
two description lines; the claim's bound of two lines is off by one). -/
theorem c4_parse_error_iff : ∀ (filename contents : List Char),
    load_example filename contents = none ↔
      (match pySplitOnce (("---").data) contents with
       | none => True
       | some (pre, _) => (pySplitlines (pyStrip pre)).length < 3) := by
  intro f contents
  unfold load_example
  cases h : pySplitOnce (("---").data) contents with
  | none => simp
  | some pr =>
    obtain ⟨pre, post⟩ := pr
    cases hh : pySplitlines (pyStrip pre) with
    | nil => simp [hh]
    | cons h0 rest =>
      by_cases hlen : 2 ≤ (rest.map strip_comment).length
      · rw [List.length_map] at hlen
        simp [hh, hlen, List.length_map]
        try omega
      · rw [List.length_map] at hlen
        simp [hh, hlen, List.length_map]
        try omega

/-- C4 counterexample: `"# t\n# d\n---\ncode"` has the separator and a
two-line header, which the claim says parses successfully, yet `load_example`
fails (the keyword lookup at the second-to-last description line is out of
range). -/
theorem c4_two_line_header_counterexample :
    (pySplitOnce (("---").data) (("# t\n# d\n---\ncode").data)).isSome = true ∧
    (pySplitlines (pyStrip (("# t\n# d\n").data))).length = 2 ∧
    load_example ("f.py").data (("# t\n# d\n---\ncode").data) = none := by decide

set_option maxRecDepth 40000 in
/-- C10 (confirmed): a tag line with no comma, no period and no internal
space in its stripped form yields the singleton keyword list of that stripped
line; in particular the empty line yields `[""]`, so a blank second-to-last
description line produces a non-empty keyword list and the rendered page gets
both a front-matter keyword entry and a Tags footer. -/
theorem c10_blank_tag_line :
    (∀ line : List Char, line.contains ',' = false → line.contains '.' = false →
      (pyStrip line).contains ' ' = false →
      get_keywords_if_available line = [pyStrip line]) ∧
    get_keywords_if_available [] = [[]] ∧
    (load_example ("f.py").data (("# t\n# d1\n\n# d2\n---\ncode").data)).map Example.keywords =
      some [[]] ∧
    (load_example ("f.py").data (("# t\n# d1\n\n# d2\n---\ncode").data)).map
      (fun e => ((pySplitOnce (("keywords:\n  - \n---").data) (to_md e)).isSome,
        (pySplitOnce (("**Tags**").data) (to_md e)).isSome)) = some (true, true) := by
  refine ⟨?_, by decide, by decide, by decide⟩
  intro line h1 h2 h3
  have hsplit : splitChar ',' line = [line] :=
    splitChar_eq_single (forall_ne_of_contains_eq_false h1)
  simp only [get_keywords_if_available, hsplit, List.map_cons, List.map_nil,
    List.any_cons, List.any_nil, h2, h3, Bool.or_false, Bool.false_or, if_false,
    Bool.or_self, Bool.false_eq_true, if_neg]

/-- C10 witness: the singleton rule applied to the comma-free, period-free,
space-free line `tag`. -/
theorem c10_blank_tag_line_witness :
    get_keywords_if_available (("tag").data) = [pyStrip (("tag").data)] :=
  c10_blank_tag_line.1 (("tag").data) (by decide) (by decide) (by decide)

section SplitOnceLemmas

/-- `startsWithSeq` detects exactly the lists beginning with `sep`. -/
theorem startsWithSeq_iff {sep l : List Char} :
    startsWithSeq sep l = true ↔ ∃ r, l = sep ++ r := by
  unfold startsWithSeq
  rw [beq_iff_eq]
  constructor
  · intro h
    refine ⟨l.drop sep.length, ?_⟩
    conv_lhs => rw [← List.take_append_drop sep.length l]
    rw [h]
  · rintro ⟨r, rfl⟩
    simp

/-- A successful `pySplitOnce` yields a decomposition of the input. -/
theorem pySplitOnce_decomp {sep : List Char} : ∀ {l a b : List Char},
    pySplitOnce sep l = some (a, b) → l = a ++ sep ++ b
  | [], a, b, h => by
    unfold pySplitOnce at h
    split at h
    · rename_i hs
      obtain ⟨r, hr⟩ := startsWithSeq_iff.1 hs
      injection h with h2
      injection h2 with ha hb
      subst ha
      subst hb
      have hnil := List.append_eq_nil.1 hr.symm
      rw [hnil.1]
      simp
    · cases h
  | c :: cs, a, b, h => by
    unfold pySplitOnce at h
    split at h
    · rename_i hs
      obtain ⟨r, hr⟩ := startsWithSeq_iff.1 hs
      injection h with h2
      injection h2 with ha hb
      subst ha
      subst hb
      rw [List.nil_append, hr, List.drop_left]
    · cases hrec : pySplitOnce sep cs with
      | none => rw [hrec] at h; cases h
      | some p =>
        obtain ⟨a2, b2⟩ := p
        rw [hrec] at h
        injection h with h2
        injection h2 with ha hb
        subst ha
        subst hb
        have ih := pySplitOnce_decomp hrec
        simp [ih]

/-- `pySplitOnce` splits at the FIRST occurrence: any other decomposition has
a prefix at least as long. -/
theorem pySplitOnce_first {sep : List Char} : ∀ {l a b : List Char},
    pySplitOnce sep l = some (a, b) →
    ∀ a2 b2, l = a2 ++ sep ++ b2 → a.length ≤ a2.length
  | [], a, b, h, a2, b2, hdec => by
    unfold pySplitOnce at h
    split at h
    · injection h with h2
      injection h2 with ha hb
      subst ha
      simp
    · cases h
  | c :: cs, a, b, h, a2, b2, hdec => by
    unfold pySplitOnce at h
    split at h
    · injection h with h2
      injection h2 with ha hb
      subst ha
      simp
    · rename_i hs
      cases hrec : pySplitOnce sep cs with
      | none => rw [hrec] at h; cases h
      | some p =>
        obtain ⟨a3, b3⟩ := p
        rw [hrec] at h
        injection h with h2
        injection h2 with ha hb
        subst ha
        subst hb
        cases a2 with
        | nil =>
          exfalso
          rw [List.nil_append] at hdec
          exact hs (startsWithSeq_iff.2 ⟨b2, hdec⟩)
        | cons c2 a2t =>
          rw [List.cons_append, List.cons_append] at hdec
          injection hdec with h1 h2t
          have htl : cs = a2t ++ sep ++ b2 := by simpa using h2t
          have := pySplitOnce_first hrec a2t b2 htl
          simpa using Nat.succ_le_succ this

/-- `pySplitOnce` fails exactly when no decomposition exists (for a non-empty
separator). -/
theorem pySplitOnce_none_iff {sep : List Char} (hsep : sep ≠ []) : ∀ {l : List Char},
    pySplitOnce sep l = none ↔ ∀ a b, l ≠ a ++ sep ++ b
  | [] => by
    have hsw : startsWithSeq sep [] = false := by
      unfold startsWithSeq
      rw [List.take_nil, beq_eq_false_iff_ne]
      exact fun h => hsep h.symm
    unfold pySplitOnce
    rw [hsw]
    simp only [Bool.false_eq_true, if_false, true_iff]
    intro a b hab
    rw [List.append_assoc] at hab
    have h1 := List.append_eq_nil.1 hab.symm
    have h2 := List.append_eq_nil.1 h1.2
    exact hsep h2.1
  | c :: cs => by
    unfold pySplitOnce
    split
    · rename_i hs
      obtain ⟨r, hr⟩ := startsWithSeq_iff.1 hs
      constructor
      · intro habs
        exact (Option.some_ne_none _ habs).elim
      · intro hall
        have hcr : c :: cs = [] ++ sep ++ r := by simpa using hr
        exact absurd hcr (hall [] r)
    · rename_i hs
      cases hrec : pySplitOnce sep cs with
      | none =>
        have ih := (pySplitOnce_none_iff hsep (l := cs)).1 hrec
        refine ⟨fun _ a b hab => ?_, fun _ => rfl⟩
        cases a with
        | nil =>
          rw [List.nil_append] at hab
          exact hs (startsWithSeq_iff.2 ⟨b, hab⟩)
        | cons c2 a2t =>
          rw [List.cons_append, List.cons_append] at hab
          injection hab with h1 h2t
          exact ih a2t b (by simpa using h2t)
      | some p =>
        obtain ⟨a3, b3⟩ := p
        have hdec := pySplitOnce_decomp hrec
        refine ⟨fun habs => ?_, fun hall => ?_⟩
        · exact (Option.some_ne_none _ habs).elim
        · exact (hall (c :: a3) b3 (by simp [hdec])).elim

end SplitOnceLemmas

/-- A successful parse exposes the split, the header lines and every field of
the resulting `Example`. -/
theorem load_example_some {filename contents : List Char} {e : Example}
    (h : load_example filename contents = some e) :
    ∃ pre post h0 rest,
      pySplitOnce (("---").data) contents = some (pre, post) ∧
      pySplitlines (pyStrip pre) = h0 :: rest ∧
      2 ≤ rest.length ∧
      e = Example.make filename (strip_comment h0)
        (joinSep ("\n").data (rest.map strip_comment))
        (get_keywords_if_available
          ((rest.map strip_comment).getD ((rest.map strip_comment).length - 2) []))
        (pyStrip post) := by
  unfold load_example at h
  cases hsp : pySplitOnce (("---").data) contents with
  | none => rw [hsp] at h; cases h
  | some p =>
    obtain ⟨pre, post⟩ := p
    rw [hsp] at h
    dsimp only at h
    cases hh : pySplitlines (pyStrip pre) with
    | nil => rw [hh] at h; cases h
    | cons h0 rest =>
      rw [hh] at h
      dsimp only at h
      by_cases hlen : 2 ≤ (rest.map strip_comment).length
      · rw [if_pos hlen] at h
        refine ⟨pre, post, h0, rest, rfl, hh, by simpa using hlen, ?_⟩
        exact (Option.some.inj h).symm
      · rw [if_neg hlen] at h
        cases h

/-- C1 (corrected): the parser splits the raw text at the first occurrence of
the SUBSTRING `---` (exactly three hyphens), wherever it occurs — not at a
whole separator line of three-or-more hyphens.  A successful split is a
first-occurrence decomposition, a failure means no occurrence, and a
successful parse takes its code region from the suffix of that substring
split. -/
theorem c1_first_occurrence_split : ∀ contents : List Char,
    (∀ pre post, pySplitOnce (("---").data) contents = some (pre, post) →
      contents = pre ++ ("---").data ++ post ∧
      ∀ pre2 post2, contents = pre2 ++ ("---").data ++ post2 → pre.length ≤ pre2.length) ∧
    (pySplitOnce (("---").data) contents = none ↔
      ∀ pre post, contents ≠ pre ++ ("---").data ++ post) ∧
    (∀ filename e, load_example filename contents = some e →
      ∃ pre post, pySplitOnce (("---").data) contents = some (pre, post) ∧
        e.code = pyStrip post) := by
  intro contents
  refine ⟨fun pre post h => ⟨pySplitOnce_decomp h, pySplitOnce_first h⟩,
    pySplitOnce_none_iff (by decide), ?_⟩
  intro filename e h
  obtain ⟨pre, post, h0, rest, hsp, _, _, he⟩ := load_example_some h
  exact ⟨pre, post, hsp, by rw [he]; rfl⟩

/-- C1 witness: the decomposition branch applied to a concrete split. -/
theorem c1_first_occurrence_split_witness :
    ("ab---cd").data = ("ab").data ++ ("---").data ++ ("cd").data :=
  ((c1_first_occurrence_split (("ab---cd").data)).1 (("ab").data) (("cd").data) (by decide)).1

/-- C1 counterexample: in `"# t\n# a\n# b\nx---y"` no line consists of three
or more hyphens, so by the claim there is no separator line to split at — yet
the parser splits mid-line and succeeds, taking `y` as the code region. -/
theorem c1_inline_separator_counterexample :
    ((pySplitlines (("# t\n# a\n# b\nx---y").data)).all
      (fun l => !(decide (3 ≤ l.length) && l.all (fun c => c == '-')))) = true ∧
    (load_example ("f.py").data (("# t\n# a\n# b\nx---y").data)).map Example.code =
      some (("y").data) := by decide

/-- Joining a concatenation splits around the separator when both sides are
non-empty. -/
theorem joinSep_append (sep : List Char) : ∀ {l1 l2 : List (List Char)}, l1 ≠ [] → l2 ≠ [] →
    joinSep sep (l1 ++ l2) = joinSep sep l1 ++ sep ++ joinSep sep l2
  | [], _, h1, _ => absurd rfl h1
  | [x], l2, _, h2 => by
    cases l2 with
    | nil => exact absurd rfl h2
    | cons y l2t => simp [joinSep]
  | x :: x2 :: xs, l2, _, h2 => by
    have ih := @joinSep_append sep (x2 :: xs) l2 (by simp) h2
    simp only [List.cons_append, List.append_eq, joinSep] at ih ⊢
    rw [ih]
    simp [List.append_assoc]

/-- C6 (corrected): the manifest keeps the stripped lines in order (an
order-preserving sublist of the stripped input) and excludes every line whose
stripped form starts with `#`, and this order is the processing and display
order preserved end-to-end: the parsing stage of `main` maps the manifest in
order (a concatenation of manifests parses to the concatenation of the parse
lists), and the rendered table of contents and gallery list the parsed
examples in exactly that order.  Blank lines, however, are NOT excluded —
they survive as empty-string entries, since `"".startswith("#")` is false. -/
theorem c6_manifest_order : ∀ lines : List (List Char),
    (loadManifest lines).Sublist (lines.map pyStrip) ∧
    (∀ l ∈ loadManifest lines, startsWithSeq (("#").data) l = false) ∧
    ([] ∈ lines.map pyStrip → [] ∈ loadManifest lines) ∧
    (∀ (cts : List Char → List Char) (lines2 : List (List Char)),
      processExamples cts (lines ++ lines2) =
        processExamples cts lines ++ processExamples cts lines2) ∧
    (∀ es1 es2 : List Example, es1 ≠ [] → es2 ≠ [] →
      make_toc (es1 ++ es2) =
        make_toc es1 ++ ("\n\n").data ++ joinSep ("\n\n").data (es2.map toc_entry) ∧
      make_gallery (es1 ++ es2) =
        make_gallery es1 ++ ("\n\n").data ++
          joinSep ("\n\n").data (es2.map make_gallery_thumbnail)) := by
  intro lines
  refine ⟨?_, ?_, ?_, ?_, ?_⟩
  · exact (List.filter_sublist _).map pyStrip
  · intro l hl
    unfold loadManifest at hl
    rw [List.mem_map] at hl
    obtain ⟨l0, hl0, rfl⟩ := hl
    rw [List.mem_filter] at hl0
    simpa using hl0.2
  · intro h
    rw [List.mem_map] at h
    obtain ⟨l0, hl0, hstrip⟩ := h
    unfold loadManifest
    rw [List.mem_map]
    refine ⟨l0, ?_, hstrip⟩
    rw [List.mem_filter]
    refine ⟨hl0, ?_⟩
    rw [hstrip]
    decide
  · intro cts lines2
    unfold processExamples loadManifest
    rw [List.filter_append, List.map_append, List.map_append]
  · intro es1 es2 h1 h2
    constructor
    · unfold make_toc
      rw [List.map_append, joinSep_append _ (by simpa using h1) (by simpa using h2)]
      simp [List.append_assoc]
    · unfold make_gallery
      rw [List.map_append, joinSep_append _ (by simpa using h1) (by simpa using h2)]
      simp [List.append_assoc]

/-- C6 witness: comment exclusion and blank-line retention at concrete
manifests, and the gallery display order at concrete singleton segments. -/
theorem c6_manifest_order_witness :
    startsWithSeq (("#").data) (("a.py").data) = false ∧
    [] ∈ loadManifest [("\n").data] ∧
    make_gallery ([exZebra] ++ [exApple]) =
      make_gallery [exZebra] ++ ("\n\n").data ++
        joinSep ("\n\n").data ([exApple].map make_gallery_thumbnail) :=
  ⟨(c6_manifest_order [("a.py\n").data]).2.1 (("a.py").data) (by decide),
    (c6_manifest_order [("\n").data]).2.2.1 (by decide),
    ((c6_manifest_order []).2.2.2.2 [exZebra] [exApple] (by simp) (by simp)).2⟩

/-- C6 counterexample: a manifest with a blank middle line keeps it as an
empty entry — blank lines are not excluded as the claim states. -/
theorem c6_blank_line_counterexample :
    loadManifest [("a.py\n").data, ("\n").data, ("b.py\n").data] =
      [("a.py").data, [], ("b.py").data] := by decide

/-- C8 (confirmed): the table of contents lists one entry per example in
exactly the input (manifest) order — concatenating example lists concatenates
their entry blocks in order, and the concrete TOC of `[Zebra, Apple]` keeps
Zebra first despite the alphabetical order. -/
theorem c8_toc_order :
    (∀ l1 l2 : List Example, l1 ≠ [] → l2 ≠ [] →
      make_toc (l1 ++ l2) =
        make_toc l1 ++ ("\n\n").data ++ joinSep ("\n\n").data (l2.map toc_entry)) ∧
    make_toc [exZebra, exApple] =
      ("---\ntitle: All Examples\nslug: /examples/all\n---\n\nimport useBaseUrl from \x27@docusaurus/useBaseUrl\x27;\n\n").data ++
        (toc_entry exZebra ++ ("\n\n").data ++ toc_entry exApple) := by
  constructor
  · intro l1 l2 h1 h2
    unfold make_toc
    rw [List.map_append, joinSep_append _ (by simpa using h1) (by simpa using h2)]
    simp [List.append_assoc]
  · rfl

/-- C8 witness: the concatenation branch applied to the two singleton lists. -/
theorem c8_toc_order_witness :
    make_toc ([exZebra] ++ [exApple]) =
      make_toc [exZebra] ++ ("\n\n").data ++ joinSep ("\n\n").data ([exApple].map toc_entry) :=
  c8_toc_order.1 [exZebra] [exApple] (by simp) (by simp)

section OrderLemmas

/-- `pyStrLt` is asymmetric. -/
theorem pyStrLt_asymm : ∀ {a b : List Char}, pyStrLt a b = true → pyStrLt b a = false
  | [], [], h => by simp [pyStrLt] at h
  | [], _ :: _, _ => by simp [pyStrLt]
  | _ :: _, [], h => by simp [pyStrLt] at h
  | a :: as, b :: bs, h => by
    simp only [pyStrLt] at h ⊢
    rcases lt_trichotomy a b with hab | hab | hab
    · rw [if_neg (lt_asymm hab), if_pos hab]
    · subst hab
      rw [if_neg (lt_irrefl a), if_neg (lt_irrefl a)] at h ⊢
      exact pyStrLt_asymm h
    · rw [if_neg (lt_asymm hab), if_pos hab] at h
      cases h

/-- `pyStrLt` is transitive. -/
theorem pyStrLt_trans : ∀ {a b c : List Char},
    pyStrLt a b = true → pyStrLt b c = true → pyStrLt a c = true
  | [], [], _, h, _ => by simp [pyStrLt] at h
  | [], _ :: _, [], _, h2 => by simp [pyStrLt] at h2
  | [], _ :: _, _ :: _, _, _ => by simp [pyStrLt]
  | _ :: _, [], _, h, _ => by simp [pyStrLt] at h
  | _ :: _, _ :: _, [], _, h2 => by simp [pyStrLt] at h2
  | a :: as, b :: bs, c :: cs, h1, h2 => by
    simp only [pyStrLt] at h1 h2 ⊢
    rcases lt_trichotomy a b with hab | hab | hab
    · rcases lt_trichotomy b c with hbc | hbc | hbc
      · rw [if_pos (lt_trans hab hbc)]
      · subst hbc
        rw [if_pos hab]
      · rw [if_neg (lt_asymm hbc), if_pos hbc] at h2
        cases h2
    · subst hab
      rcases lt_trichotomy a c with hac | hac | hac
      · rw [if_pos hac]
      · subst hac
        rw [if_neg (lt_irrefl a), if_neg (lt_irrefl a)] at h1 h2 ⊢
        exact pyStrLt_trans h1 h2
      · rw [if_neg (lt_asymm hac), if_pos hac] at h2
        cases h2
    · rw [if_neg (lt_asymm hab), if_pos hab] at h1
      cases h1

/-- Two lists unrelated by `pyStrLt` in either direction are equal. -/
theorem pyStrLt_connex : ∀ {a b : List Char},
    pyStrLt a b = false → pyStrLt b a = false → a = b
  | [], [], _, _ => rfl
  | [], _ :: _, h, _ => by simp [pyStrLt] at h
  | _ :: _, [], _, h2 => by simp [pyStrLt] at h2
  | a :: as, b :: bs, h1, h2 => by
    simp only [pyStrLt] at h1 h2
    rcases lt_trichotomy a b with hab | hab | hab
    · rw [if_pos hab] at h1
      cases h1
    · subst hab
      rw [if_neg (lt_irrefl a), if_neg (lt_irrefl a)] at h1 h2
      rw [pyStrLt_connex h1 h2]
    · rw [if_pos hab] at h2
      cases h2

end OrderLemmas

section SortLemmas

/-- Members of an insertion are the new item or old members. -/
theorem mem_insertItem {p q : List Char × List Example} : ∀ {l},
    q ∈ insertItem p l → q = p ∨ q ∈ l
  | [], h => by
    simp [insertItem] at h
    exact Or.inl h
  | r :: rs, h => by
    simp only [insertItem] at h
    split at h
    · rcases List.mem_cons.1 h with h | h
      · exact Or.inr (by simp [h])
      · rcases mem_insertItem h with h | h
        · exact Or.inl h
        · exact Or.inr (List.mem_cons_of_mem _ h)
    · rcases List.mem_cons.1 h with h | h
      · exact Or.inl h
      · exact Or.inr h

/-- Inserting permutes with consing. -/
theorem perm_insertItem (p : List Char × List Example) : ∀ l,
    List.Perm (insertItem p l) (p :: l)
  | [] => List.Perm.refl _
  | r :: rs => by
    simp only [insertItem]
    split
    · exact (List.Perm.cons r (perm_insertItem p rs)).trans (List.Perm.swap p r rs)
    · exact List.Perm.refl _

/-- The insertion sort permutes its input. -/
theorem perm_sortItems : ∀ l, List.Perm (sortItems l) l
  | [] => List.Perm.refl _
  | p :: ps => (perm_insertItem p (sortItems ps)).trans ((perm_sortItems ps).cons p)

/-- Insertion preserves sortedness by key. -/
theorem pairwise_insertItem {p : List Char × List Example} : ∀ {l},
    l.Pairwise (fun x y => pyStrLt y.1 x.1 = false) →
    (insertItem p l).Pairwise (fun x y => pyStrLt y.1 x.1 = false)
  | [], _ => by simp [insertItem]
  | q :: qs, h => by
    simp only [insertItem]
    rw [List.pairwise_cons] at h
    obtain ⟨hq, hqs⟩ := h
    split
    · rename_i hlt
      rw [List.pairwise_cons]
      refine ⟨?_, pairwise_insertItem hqs⟩
      intro r hr
      rcases mem_insertItem hr with h | h
      · rw [h]
        exact pyStrLt_asymm hlt
      · exact hq r h
    · rename_i hnlt
      have hqp : pyStrLt q.1 p.1 = false := by
        simpa using hnlt
      rw [List.pairwise_cons]
      constructor
      · intro r hr
        rcases List.mem_cons.1 hr with h | h
        · rw [h]
          exact hqp
        · have hqr := hq r h
          by_cases habs : pyStrLt r.1 p.1 = true
          · exfalso
            cases hqr2 : pyStrLt q.1 r.1 with
            | true => exact absurd (pyStrLt_trans hqr2 habs) (by simp [hqp])
            | false =>
              have heq : q.1 = r.1 := pyStrLt_connex hqr2 hqr
              rw [← heq] at habs
              exact absurd habs (by simp [hqp])
          · simpa using habs
      · rw [List.pairwise_cons]
        exact ⟨hq, hqs⟩

/-- The insertion sort produces a key-sorted list. -/
theorem pairwise_sortItems : ∀ l,
    (sortItems l).Pairwise (fun x y => pyStrLt y.1 x.1 = false)
  | [] => List.Pairwise.nil
  | _p :: ps => pairwise_insertItem (pairwise_sortItems ps)

end SortLemmas

section DedupLemmas

/-- Membership in `dedupFirst`: in the list and not among the seen keys. -/
theorem mem_dedupFirst : ∀ (seen l : List (List Char)) (k : List Char),
    k ∈ dedupFirst seen l ↔ (k ∈ l ∧ k ∉ seen)
  | seen, [], k => by simp [dedupFirst]
  | seen, k2 :: ks, k => by
    simp only [dedupFirst]
    split
    · rename_i hseen
      rw [List.contains, List.elem_eq_mem, decide_eq_true_eq] at hseen
      rw [mem_dedupFirst seen ks k]
      simp only [List.mem_cons]
      constructor
      · rintro ⟨h1, h2⟩
        exact ⟨Or.inr h1, h2⟩
      · rintro ⟨h1 | h1, h2⟩
        · subst h1
          exact absurd hseen h2
        · exact ⟨h1, h2⟩
    · rename_i hseen
      rw [List.contains, List.elem_eq_mem] at hseen
      have hk2 : k2 ∉ seen := by simpa using hseen
      simp only [List.mem_cons, mem_dedupFirst (k2 :: seen) ks k]
      constructor
      · rintro (h | ⟨h1, h2⟩)
        · subst h
          exact ⟨Or.inl rfl, hk2⟩
        · refine ⟨Or.inr h1, ?_⟩
          intro hc
          exact h2 (Or.inr hc)
      · rintro ⟨h1 | h1, h2⟩
        · exact Or.inl h1
        · by_cases hk : k = k2
          · exact Or.inl hk
          · refine Or.inr ⟨h1, ?_⟩
            rintro (h | h)
            · exact hk h
            · exact h2 h

/-- `dedupFirst` has no duplicates. -/
theorem nodup_dedupFirst : ∀ (seen l : List (List Char)), (dedupFirst seen l).Nodup
  | seen, [] => by simp [dedupFirst]
  | seen, k2 :: ks => by
    simp only [dedupFirst]
    split
    · exact nodup_dedupFirst seen ks
    · rw [List.nodup_cons]
      refine ⟨?_, nodup_dedupFirst (k2 :: seen) ks⟩
      intro hc
      exact ((mem_dedupFirst _ _ _).1 hc).2 (by simp)

end DedupLemmas

section IndexLemmas

/-- A keyword occurs in `allKeywords` exactly when some example carries it. -/
theorem mem_allKeywords : ∀ (examples : List Example) (k : List Char),
    k ∈ allKeywords examples ↔ ∃ e ∈ examples, k ∈ e.keywords
  | [], k => by simp [allKeywords]
  | e :: es, k => by
    constructor
    · intro h
      rcases List.mem_append.1 h with h | h
      · exact ⟨e, by simp, h⟩
      · obtain ⟨e2, he2, hk⟩ := (mem_allKeywords es k).1 h
        exact ⟨e2, List.mem_cons_of_mem _ he2, hk⟩
    · rintro ⟨e2, he2, hk⟩
      rcases List.mem_cons.1 he2 with h | h
      · subst h
        exact List.mem_append.2 (Or.inl hk)
      · exact List.mem_append.2 (Or.inr ((mem_allKeywords es k).2 ⟨e2, h, hk⟩))

/-- In a duplicate-free list containing `k`, filtering for `k` keeps exactly
one copy. -/
theorem nodup_filter_eq_single {k : List Char} : ∀ {l : List (List Char)},
    l.Nodup → k ∈ l → l.filter (fun x => x == k) = [k]
  | [], _, hk => absurd hk (by simp)
  | a :: as, hnd, hk => by
    rw [List.nodup_cons] at hnd
    rcases List.mem_cons.1 hk with h | h
    · rw [List.filter_cons, if_pos (by simp [h])]
      have hrest : as.filter (fun x => x == k) = [] := by
        rw [List.filter_eq_nil_iff]
        intro x hx
        simp only [beq_iff_eq]
        intro he
        subst he
        rw [h] at hx
        exact hnd.1 hx
      rw [hrest, h]
    · have hak : (a == k) = false := by
        simp only [beq_eq_false_iff_ne]
        intro he
        subst he
        exact hnd.1 h
      rw [List.filter_cons, if_neg (by simp [hak])]
      exact nodup_filter_eq_single hnd.2 h

/-- Under duplicate-free keyword lists, a bucket is the manifest-ordered
filter of the examples carrying the keyword. -/
theorem bucketOf_eq_filter (k : List Char) : ∀ (examples : List Example),
    (∀ e ∈ examples, e.keywords.Nodup) →
    bucketOf k examples = examples.filter (fun e => e.keywords.contains k)
  | [], _ => rfl
  | e :: es, h => by
    have ih := bucketOf_eq_filter k es (fun e2 he2 => h e2 (List.mem_cons_of_mem _ he2))
    simp only [bucketOf]
    by_cases hk : k ∈ e.keywords
    · have hcont : e.keywords.contains k = true := by
        rw [List.contains, List.elem_eq_mem, decide_eq_true_eq]
        exact hk
      rw [nodup_filter_eq_single (h e (by simp)) hk, List.filter_cons, if_pos hcont, ih]
      rfl
    · have hcont : ¬(e.keywords.contains k = true) := by
        rw [List.contains, List.elem_eq_mem, decide_eq_true_eq]
        exact hk
      have hf : e.keywords.filter (fun k2 => k2 == k) = [] := by
        rw [List.filter_eq_nil_iff]
        intro x hx
        simp only [beq_iff_eq]
        intro he
        subst he
        exact hk hx
      rw [hf, List.filter_cons, if_neg hcont, ih]
      rfl

end IndexLemmas

set_option maxRecDepth 80000 in
/-- C7 (confirmed): the tag index has one entry per distinct keyword, keys in
strictly increasing lexicographic order; each bucket is the scan-order bucket
of the `defaultdict` loop, which under duplicate-free keyword lists is the
manifest-ordered sublist of examples carrying the keyword; and on the claim's
concrete instance (`E1` with keywords `x, y`; `E2` with keyword `y`) the
rendered page has the `x` section (only `E1`) before the `y` section (`E1`
and `E2`). -/
theorem c7_tag_index_grouping :
    (∀ examples : List Example,
      ((index_examples examples).map Prod.fst).Pairwise (fun a b => pyStrLt a b = true) ∧
      (∀ k, k ∈ (index_examples examples).map Prod.fst ↔ ∃ e ∈ examples, k ∈ e.keywords) ∧
      (∀ p ∈ index_examples examples, p.2 = bucketOf p.1 examples) ∧
      ((∀ e ∈ examples, e.keywords.Nodup) →
        ∀ p ∈ index_examples examples, p.2.Sublist examples)) ∧
    index_examples [exKw1, exKw2] =
      [(("x").data, [exKw1]), (("y").data, [exKw1, exKw2])] ∧
    make_examples_by_keyword [exKw1, exKw2] =
      ("---\ntitle: Tags\n---\n\nimport useBaseUrl from \x27@docusaurus/useBaseUrl\x27;\n").data ++
        ("\n").data ++
        (make_keyword_group (("x").data) [exKw1] ++ ("\n\n").data ++
          make_keyword_group (("y").data) [exKw1, exKw2]) := by
  refine ⟨?_, by decide, by decide⟩
  intro examples
  have hidx : index_examples examples =
      sortItems ((dedupFirst [] (allKeywords examples)).map
        (fun k => (k, bucketOf k examples))) := rfl
  have hperm := perm_sortItems ((dedupFirst [] (allKeywords examples)).map
    (fun k => (k, bucketOf k examples)))
  have hbucket : ∀ p ∈ index_examples examples, p.2 = bucketOf p.1 examples := by
    intro p hp
    rw [hidx] at hp
    have hp2 := hperm.mem_iff.1 hp
    rw [List.mem_map] at hp2
    obtain ⟨k, _, hkp⟩ := hp2
    rw [← hkp]
  refine ⟨?_, ?_, hbucket, ?_⟩
  · rw [hidx]
    have hpw := pairwise_sortItems ((dedupFirst [] (allKeywords examples)).map
      (fun k => (k, bucketOf k examples)))
    have hmap : (((sortItems ((dedupFirst [] (allKeywords examples)).map
        (fun k => (k, bucketOf k examples)))).map Prod.fst)).Pairwise
        (fun a b => pyStrLt b a = false) :=
      List.Pairwise.map _ (fun a b h => h) hpw
    have hnd : (((sortItems ((dedupFirst [] (allKeywords examples)).map
        (fun k => (k, bucketOf k examples)))).map Prod.fst)).Nodup := by
      have h1 : (((dedupFirst [] (allKeywords examples)).map
          (fun k => (k, bucketOf k examples))).map Prod.fst).Nodup := by
        rw [List.map_map]
        have hcomp : (Prod.fst ∘ fun k => (k, bucketOf k examples)) = id := rfl
        rw [hcomp, List.map_id]
        exact nodup_dedupFirst [] _
      exact ((hperm.map Prod.fst).nodup_iff).2 h1
    refine (hmap.and hnd).imp ?_
    rintro a b ⟨hle, hne⟩
    cases hab : pyStrLt a b with
    | true => rfl
    | false => exact absurd (pyStrLt_connex hab hle) hne
  · intro k
    rw [hidx]
    rw [(hperm.map Prod.fst).mem_iff]
    rw [List.map_map]
    have hcomp : (Prod.fst ∘ fun k => (k, bucketOf k examples)) = id := rfl
    rw [hcomp, List.map_id]
    rw [mem_dedupFirst [] (allKeywords examples) k]
    rw [mem_allKeywords examples k]
    simp
  · intro hnodup p hp
    rw [hbucket p hp, bucketOf_eq_filter p.1 examples hnodup]
    exact List.filter_sublist examples

/-- C7 witness: sortedness of the concrete index and the manifest-order
bucket of keyword `y`, both obtained from the theorem at `[exKw1, exKw2]`. -/
theorem c7_tag_index_grouping_witness :
    ((index_examples [exKw1, exKw2]).map Prod.fst).Pairwise (fun a b => pyStrLt a b = true) ∧
    ((("y").data, [exKw1, exKw2]) : List Char × List Example).2.Sublist [exKw1, exKw2] :=
  ⟨(c7_tag_index_grouping.1 [exKw1, exKw2]).1,
    (c7_tag_index_grouping.1 [exKw1, exKw2]).2.2.2 (by decide)
      ((("y").data, [exKw1, exKw2])) (by decide)⟩

section SplitlinesLemmas

/-- Equation for `pySplitlines` on a two-or-more element list. -/
theorem pySplitlines_cons_cons (c c2 : Char) (cs : List Char) :
    pySplitlines (c :: c2 :: cs) =
      if c = '\r' ∧ c2 = '\n' then [] :: pySplitlines cs
      else if lineBreakChar c then [] :: pySplitlines (c2 :: cs)
      else consLine c (pySplitlines (c2 :: cs)) := rfl

/-- Equation for `pySplitlines` on a singleton. -/
theorem pySplitlines_singleton (c : Char) :
    pySplitlines [c] = if lineBreakChar c then [[]] else [[c]] := rfl

/-- Equation for `splitChar` on nil. -/
theorem splitChar_nil (sep : Char) : splitChar sep [] = [[]] := rfl

/-- Equation for `splitChar` on a cons, via `consLine`. -/
theorem splitChar_cons_eq (sep c : Char) (cs : List Char) :
    splitChar sep (c :: cs) =
      if c = sep then [] :: splitChar sep cs else consLine c (splitChar sep cs) := by
  by_cases hc : c = sep
  · simp [splitChar, hc]
  · cases h : splitChar sep cs with
    | nil => exact absurd h (splitChar_ne_nil sep cs)
    | cons l ls => simp [splitChar, consLine, hc, h]

/-- Every line produced by `pySplitlines` is free of line-break characters. -/
theorem pySplitlines_breakFree : ∀ (s : List Char),
    ∀ l ∈ pySplitlines s, ∀ c ∈ l, lineBreakChar c = false
  | [] => by simp [pySplitlines]
  | [c] => by
    intro l hl ch hch
    by_cases h : lineBreakChar c
    · rw [pySplitlines_singleton, if_pos h] at hl
      simp at hl
      subst hl
      simp at hch
    · rw [pySplitlines_singleton, if_neg h] at hl
      simp at hl
      subst hl
      simp at hch
      subst hch
      simpa using h
  | c :: c2 :: cs => by
    intro l hl ch hch
    rw [pySplitlines_cons_cons] at hl
    by_cases h1 : c = '\r' ∧ c2 = '\n'
    · rw [if_pos h1] at hl
      rcases List.mem_cons.1 hl with h | h
      · subst h
        simp at hch
      · exact pySplitlines_breakFree cs l h ch hch
    · rw [if_neg h1] at hl
      by_cases h2 : lineBreakChar c
      · rw [if_pos h2] at hl
        rcases List.mem_cons.1 hl with h | h
        · subst h
          simp at hch
        · exact pySplitlines_breakFree (c2 :: cs) l h ch hch
      · rw [if_neg h2] at hl
        cases hsp : pySplitlines (c2 :: cs) with
        | nil =>
          rw [hsp] at hl
          simp [consLine] at hl
          subst hl
          simp at hch
          subst hch
          simpa using h2
        | cons l0 ls0 =>
          rw [hsp] at hl
          simp only [consLine] at hl
          rcases List.mem_cons.1 hl with h | h
          · subst h
            rcases List.mem_cons.1 hch with h | h
            · subst h
              simpa using h2
            · exact pySplitlines_breakFree (c2 :: cs) l0 (by rw [hsp]; simp) ch h
          · exact pySplitlines_breakFree (c2 :: cs) l (by rw [hsp]; simp [h]) ch hch

/-- Splitting after an explicit `\n`: the prefix contributes its `'\n'`-split
pieces when its only break character is `\n`. -/
theorem pySplitlines_append_nl : ∀ (a b : List Char),
    (∀ ch ∈ a, lineBreakChar ch = true → ch = '\n') →
    pySplitlines (a ++ '\n' :: b) = splitChar '\n' a ++ pySplitlines b
  | [], b, _ => by
    cases b with
    | nil =>
      rw [List.nil_append, splitChar_nil]
      rw [show pySplitlines ['\n'] = [[]] from by
        rw [pySplitlines_singleton, if_pos (by decide)]]
      rfl
    | cons c2 bs =>
      rw [List.nil_append, splitChar_nil, pySplitlines_cons_cons]
      rw [if_neg (by rintro ⟨hh, _⟩; exact absurd hh (by decide)), if_pos (by decide)]
      rfl
  | c :: as, b, h => by
    have ih := pySplitlines_append_nl as b (fun ch hch => h ch (List.mem_cons_of_mem _ hch))
    rw [List.cons_append]
    by_cases hc : lineBreakChar c = true
    · have hcn : c = '\n' := h c (by simp) hc
      subst hcn
      cases as with
      | nil =>
        rw [List.nil_append]
        rw [pySplitlines_cons_cons,
          if_neg (by rintro ⟨hh, _⟩; exact absurd hh (by decide)), if_pos (by decide)]
        rw [List.nil_append, splitChar_nil] at ih
        conv_rhs => rw [splitChar_cons_eq, if_pos rfl, splitChar_nil]
        rw [ih]
        rfl
      | cons a2 as2 =>
        rw [List.cons_append]
        rw [pySplitlines_cons_cons,
          if_neg (by rintro ⟨hh, _⟩; exact absurd hh (by decide)), if_pos (by decide)]
        rw [List.cons_append] at ih
        conv_rhs => rw [splitChar_cons_eq, if_pos rfl]
        rw [ih]
        rfl
    · have hcn : c ≠ '\n' := by
        intro he
        subst he
        exact hc (by decide)
      have hcr : c ≠ '\r' := by
        intro he
        subst he
        exact hc (by decide)
      cases as with
      | nil =>
        rw [List.nil_append]
        rw [pySplitlines_cons_cons, if_neg (fun hp => hcr hp.1), if_neg hc]
        rw [List.nil_append, splitChar_nil] at ih
        conv_rhs => rw [splitChar_cons_eq, if_neg hcn, splitChar_nil]
        rw [ih]
        rfl
      | cons a2 as2 =>
        rw [List.cons_append]
        rw [pySplitlines_cons_cons, if_neg (fun hp => hcr hp.1), if_neg hc]
        rw [List.cons_append] at ih
        conv_rhs => rw [splitChar_cons_eq, if_neg hcn]
        rw [ih]
        cases hsp : splitChar '\n' (a2 :: as2) with
        | nil => exact absurd hsp (splitChar_ne_nil _ _)
        | cons l0 ls0 => rfl

/-- A break-free chunk before an explicit `\n` is one whole line. -/
theorem pySplitlines_chunk (a b : List Char)
    (ha : ∀ ch ∈ a, lineBreakChar ch = false) :
    pySplitlines (a ++ '\n' :: b) = a :: pySplitlines b := by
  rw [pySplitlines_append_nl a b (fun ch hch hbr => absurd hbr (by simp [ha ch hch]))]
  rw [splitChar_eq_single (fun x hx he => by
    subst he
    exact absurd (ha '\n' hx) (by decide))]
  rfl

/-- An explicit `\n` at the head produces an empty line. -/
theorem pySplitlines_break_nl (b : List Char) :
    pySplitlines ('\n' :: b) = [] :: pySplitlines b := by
  have h := pySplitlines_chunk [] b (by simp)
  simpa using h

/-- A non-empty break-free list is a single line. -/
theorem pySplitlines_single_chunk : ∀ (a : List Char),
    (∀ c ∈ a, lineBreakChar c = false) → a ≠ [] → pySplitlines a = [a]
  | [], _, hne => absurd rfl hne
  | [c], ha, _ => by
    rw [pySplitlines_singleton, if_neg (by simp [ha c (by simp)])]
  | c :: c2 :: cs, ha, _ => by
    have hc : lineBreakChar c = false := ha c (by simp)
    have hcr : c ≠ '\r' := by
      intro he
      subst he
      exact absurd hc (by decide)
    rw [pySplitlines_cons_cons, if_neg (fun hp => hcr hp.1), if_neg (by simp [hc])]
    rw [pySplitlines_single_chunk (c2 :: cs)
      (fun x hx => ha x (List.mem_cons_of_mem _ hx)) (by simp)]
    rfl

end SplitlinesLemmas

section ScanHelpers

/-- Dropping a satisfying prefix skips past it. -/
theorem dropWhile_append_of_all {α : Type} {p : α → Bool} : ∀ {P : List α} (rest : List α),
    (∀ x ∈ P, p x = true) → (P ++ rest).dropWhile p = rest.dropWhile p
  | [], rest, _ => rfl
  | x :: xs, rest, h => by
    rw [List.cons_append]
    rw [show (x :: (xs ++ rest)).dropWhile p = (xs ++ rest).dropWhile p from by
      simp [List.dropWhile, h x (by simp)]]
    exact dropWhile_append_of_all rest (fun y hy => h y (List.mem_cons_of_mem _ hy))

/-- Dropping stops at the first failing element. -/
theorem dropWhile_cons_neg {α : Type} {p : α → Bool} {x : α} (l : List α) (h : p x = false) :
    (x :: l).dropWhile p = x :: l := by
  simp [List.dropWhile, h]

/-- Taking a satisfying prefix stops exactly at the stopper. -/
theorem takeWhile_append_stop {α : Type} {p : α → Bool} : ∀ {A : List α} {stop : α} (Q : List α),
    (∀ x ∈ A, p x = true) → p stop = false → (A ++ stop :: Q).takeWhile p = A
  | [], stop, Q, _, hstop => by simp [List.takeWhile, hstop]
  | x :: xs, stop, Q, h, hstop => by
    rw [List.cons_append]
    rw [show (x :: (xs ++ stop :: Q)).takeWhile p = x :: (xs ++ stop :: Q).takeWhile p from by
      simp [List.takeWhile, h x (by simp)]]
    rw [takeWhile_append_stop Q (fun y hy => h y (List.mem_cons_of_mem _ hy)) hstop]

/-- Heads differ, so the lists differ (after an append exposing the head). -/
theorem cons_head_append_ne {c d : Char} (x y z : List Char) (h : c ≠ d) :
    (c :: x) ++ y ≠ d :: z := by
  rw [List.cons_append]
  intro he
  injection he with h1 _
  exact h h1

end ScanHelpers

section ExtractLemmas

/-- Boolean disequality from propositional disequality. -/
theorem bne_of_ne {x y : List Char} (h : x ≠ y) : (!(x == y)) = true := by
  simp [h]

/-- Characters of a `joinSep [sep]` join are the separator or piece characters. -/
theorem mem_joinSep {sep : Char} : ∀ {L : List (List Char)} {ch : Char},
    ch ∈ joinSep [sep] L → ch = sep ∨ ∃ l ∈ L, ch ∈ l
  | [], ch, h => by simp [joinSep] at h
  | [l], ch, h => Or.inr ⟨l, by simp, by simpa [joinSep] using h⟩
  | l :: l2 :: L, ch, h => by
    simp only [joinSep] at h
    rcases List.mem_append.1 h with h | h
    · rcases List.mem_append.1 h with h | h
      · exact Or.inr ⟨l, by simp, h⟩
      · simp at h
        exact Or.inl h
    · rcases mem_joinSep h with h | ⟨l3, hl3, hcl⟩
      · exact Or.inl h
      · exact Or.inr ⟨l3, List.mem_cons_of_mem _ hl3, hcl⟩

/-- Lines of the rendered page from the description onwards: one empty line,
the description lines, an empty line, the cover line, an empty line, the
opening fence, the code lines, the closing fence, then the remaining tail. -/
theorem pySplitlines_suffix (S D C tail : List Char)
    (hs : ∀ c ∈ S, lineBreakChar c = false)
    (hd : ∀ ch ∈ D, lineBreakChar ch = true → ch = '\n')
    (hc : ∀ ch ∈ C, lineBreakChar ch = true → ch = '\n') :
    pySplitlines ('\n' :: (D ++ '\n' :: ('\n' :: ((("<div className=\x27cover\x27 style=\x7b\x7b backgroundImage: \x27url(\x27 + require(\x27./assets/").data ++ (S ++ (".png\x27).default + \x27)\x27 \x7d\x7d />").data)) ++ '\n' :: ('\n' :: (("```py").data ++ '\n' :: (C ++ '\n' :: (("```").data ++ '\n' :: tail)))))))) =
      [] :: (splitChar '\n' D ++ ([] :: ((("<div className=\x27cover\x27 style=\x7b\x7b backgroundImage: \x27url(\x27 + require(\x27./assets/").data ++ (S ++ (".png\x27).default + \x27)\x27 \x7d\x7d />").data)) :: ([] :: (("```py").data :: (splitChar '\n' C ++ (("```").data :: pySplitlines tail))))))) := by
  rw [pySplitlines_break_nl]
  rw [pySplitlines_append_nl D _ hd]
  rw [pySplitlines_break_nl]
  rw [pySplitlines_chunk (("<div className=\x27cover\x27 style=\x7b\x7b backgroundImage: \x27url(\x27 + require(\x27./assets/").data ++ (S ++ (".png\x27).default + \x27)\x27 \x7d\x7d />").data)) _ (by
    intro c hcm
    rcases List.mem_append.1 hcm with h | h
    · exact (show ∀ x ∈ ("<div className=\x27cover\x27 style=\x7b\x7b backgroundImage: \x27url(\x27 + require(\x27./assets/").data,
        lineBreakChar x = false by decide) c h
    · rcases List.mem_append.1 h with h | h
      · exact hs c h
      · exact (show ∀ x ∈ (".png\x27).default + \x27)\x27 \x7d\x7d />").data,
          lineBreakChar x = false by decide) c h)]
  rw [pySplitlines_break_nl]
  rw [pySplitlines_chunk ("```py").data _ (by decide)]
  rw [pySplitlines_append_nl C _ hc]
  rw [pySplitlines_chunk ("```").data _ (by decide)]

/-- Extraction from a page whose lines have the fenced-block shape. -/
theorem extractFence_of_lines {page : List Char} {P : List (List Char)} {C : List Char}
    {Q : List (List Char)}
    (hlines : pySplitlines page =
      P ++ (("```py").data :: (splitChar '\n' C ++ (("```").data :: Q))))
    (hP : ∀ l ∈ P, l ≠ ("```py").data)
    (hcf : ∀ l ∈ splitChar '\n' C, l ≠ ("```").data) :
    extractFence page = some C := by
  unfold extractFence
  rw [hlines]
  rw [dropWhile_append_of_all _ (fun x hx => bne_of_ne (hP x hx))]
  rw [dropWhile_cons_neg _ (by simp)]
  show (if (splitChar '\n' C ++ (("```").data :: Q)).any (fun l2 => l2 == ("```").data) = true
      then some (joinSep ("\n").data
        ((splitChar '\n' C ++ (("```").data :: Q)).takeWhile (fun l2 => !(l2 == ("```").data))))
      else none) = some C
  have hany : (splitChar '\n' C ++ (("```").data :: Q)).any
      (fun l2 => l2 == ("```").data) = true := by
    rw [List.any_append, List.any_cons]
    simp
  rw [hany, if_pos rfl]
  rw [takeWhile_append_stop Q (fun x hx => bne_of_ne (hcf x hx)) (by simp)]
  rw [show joinSep ("\n").data (splitChar '\n' C) = C from joinSep_splitChar '\n' C]

end ExtractLemmas

section ExtractMain

/-- `getD` at an in-range index is a member. -/
theorem getD_mem : ∀ (l : List (List Char)) (i : Nat), i < l.length → l.getD i [] ∈ l
  | [], i, h => by simp at h
  | x :: xs, 0, _ => by simp [List.getD]
  | x :: xs, i + 1, h => by
    have hm := getD_mem xs i (by simpa using h)
    have hstep : (x :: xs).getD (i + 1) [] = xs.getD i [] := by
      simp [List.getD]
    rw [hstep]
    exact List.mem_cons_of_mem x hm

/-- Characters of the stem returned by `pySplitext` come from the input. -/
theorem mem_pySplitext_fst {l : List Char} {c : Char}
    (h : c ∈ (pySplitext l).1) : c ∈ l := by
  unfold pySplitext at h
  cases hdot : lastIdxOf '.' l with
  | none =>
    rw [hdot] at h
    exact h
  | some d =>
    rw [hdot] at h
    dsimp only at h
    split at h
    · split at h
      · exact List.take_subset d l h
      · exact h
    · exact h

set_option maxRecDepth 100000 in
/-- Rendering then extracting the fenced block returns the code field, for an
explicitly constructed `Example` whose fields satisfy the side conditions. -/
theorem extract_to_md_mk (nm S fn T st D C : List Char) (kws : List (List Char))
    (ht : ∀ c ∈ T, lineBreakChar c = false)
    (hs : ∀ c ∈ S, lineBreakChar c = false)
    (hk : ∀ k ∈ kws, ∀ c ∈ k, lineBreakChar c = false)
    (hd : ∀ ch ∈ D, lineBreakChar ch = true → ch = '\n')
    (hdpy : ∀ l ∈ splitChar '\n' D, l ≠ ("```py").data)
    (hc : ∀ ch ∈ C, lineBreakChar ch = true → ch = '\n')
    (hcf : ∀ l ∈ splitChar '\n' C, l ≠ ("```").data) :
    extractFence (to_md ⟨nm, S, fn, T, st, D, kws, C⟩) = some C := by
  have hT : ∀ x ∈ ("title: ").data ++ T, lineBreakChar x = false := by
    intro c hcm
    rcases List.mem_append.1 hcm with h | h
    · exact (show ∀ x ∈ ("title: ").data, lineBreakChar x = false by decide) c h
    · exact ht c h
  cases kws with
  | nil =>
    have hpage : to_md ⟨nm, S, fn, T, st, D, [], C⟩ =
        ("---").data ++ '\n' :: ((("title: ").data ++ T) ++ '\n' :: (("---").data ++ '\n' :: (("        ").data ++ '\n' :: ('\n' :: (D ++ '\n' :: ('\n' :: ((("<div className=\x27cover\x27 style=\x7b\x7b backgroundImage: \x27url(\x27 + require(\x27./assets/").data ++ (S ++ (".png\x27).default + \x27)\x27 \x7d\x7d />").data)) ++ '\n' :: ('\n' :: (("```py").data ++ '\n' :: (C ++ '\n' :: (("```").data ++ '\n' :: (("        ").data)))))))))))) := by
      simp only [to_md, md_header, md_body, md_footer, List.isEmpty_nil, if_true]
      simp only [List.append_assoc, List.cons_append, List.nil_append, List.append_nil, List.singleton_append]
    have hlines : pySplitlines (to_md ⟨nm, S, fn, T, st, D, [], C⟩) =
        ([("---").data, ("title: ").data ++ T, ("---").data, ("        ").data, []] ++ (splitChar '\n' D ++ [[], (("<div className=\x27cover\x27 style=\x7b\x7b backgroundImage: \x27url(\x27 + require(\x27./assets/").data ++ (S ++ (".png\x27).default + \x27)\x27 \x7d\x7d />").data)), []])) ++
          (("```py").data :: (splitChar '\n' C ++ (("```").data :: pySplitlines ("        ").data))) := by
      rw [hpage]
      rw [pySplitlines_chunk ("---").data _ (by decide)]
      rw [pySplitlines_chunk (("title: ").data ++ T) _ hT]
      rw [pySplitlines_chunk ("---").data _ (by decide)]
      rw [pySplitlines_chunk ("        ").data _ (by decide)]
      rw [pySplitlines_suffix S D C ("        ").data hs hd hc]
      simp [List.append_assoc]
    refine extractFence_of_lines hlines ?_ hcf
    intro l hl
    rcases List.mem_append.1 hl with h | h
    · simp only [List.mem_cons, List.mem_singleton] at h
      rcases h with h | h | h | h | h
      · subst h; decide
      · subst h; exact cons_head_append_ne _ _ _ (by decide)
      · subst h; decide
      · subst h; decide
      · simp at h
        subst h; decide
    · rcases List.mem_append.1 h with h | h
      · exact hdpy l h
      · simp only [List.mem_cons, List.mem_singleton] at h
        rcases h with h | h | h
        · subst h; decide
        · subst h; exact cons_head_append_ne _ _ _ (by decide)
        · simp at h
          subst h; decide
  | cons k0 ks =>
    have hKWnl : ∀ p ∈ ((k0 :: ks).map (fun x => ("  - ").data ++ x)), ∀ x ∈ p, x ≠ '\n' := by
      intro p hp x hx
      rw [List.mem_map] at hp
      obtain ⟨k, hkmem, hpk⟩ := hp
      subst hpk
      rcases List.mem_append.1 hx with h | h
      · exact (show ∀ y ∈ ("  - ").data, y ≠ '\n' by decide) x h
      · intro he
        subst he
        exact absurd (hk k hkmem '\n' h) (by decide)
    have hKWlines : splitChar '\n' (joinSep ['\n'] ((k0 :: ks).map (fun x => ("  - ").data ++ x))) = ((k0 :: ks).map (fun x => ("  - ").data ++ x)) :=
      splitChar_joinSep (by simp) hKWnl
    have hKWonly : ∀ ch ∈ joinSep ['\n'] ((k0 :: ks).map (fun x => ("  - ").data ++ x)), lineBreakChar ch = true → ch = '\n' := by
      intro ch hch hbr
      rcases mem_joinSep hch with h | ⟨piece, hpiece, hcp⟩
      · exact h
      · rw [List.mem_map] at hpiece
        obtain ⟨k, hkmem, hpk⟩ := hpiece
        subst hpk
        rcases List.mem_append.1 hcp with h | h
        · exact absurd hbr
            (by simp [(show ∀ y ∈ ("  - ").data, lineBreakChar y = false by decide) ch h])
        · exact absurd hbr (by simp [hk k hkmem ch h])
    have hpage : to_md ⟨nm, S, fn, T, st, D, k0 :: ks, C⟩ =
        ("---").data ++ '\n' :: ((("title: ").data ++ T) ++ '\n' :: ((("keywords:").data) ++ '\n' :: (joinSep ['\n'] ((k0 :: ks).map (fun x => ("  - ").data ++ x)) ++ '\n' :: (("---").data ++ '\n' :: ('\n' :: (("import useBaseUrl from \x27@docusaurus/useBaseUrl\x27;").data ++ '\n' :: ('\n' :: (("        ").data ++ '\n' :: ('\n' :: (D ++ '\n' :: ('\n' :: ((("<div className=\x27cover\x27 style=\x7b\x7b backgroundImage: \x27url(\x27 + require(\x27./assets/").data ++ (S ++ (".png\x27).default + \x27)\x27 \x7d\x7d />").data)) ++ '\n' :: ('\n' :: (("```py").data ++ '\n' :: (C ++ '\n' :: (("```").data ++ '\n' :: (("        ").data ++ md_footer ⟨nm, S, fn, T, st, D, k0 :: ks, C⟩))))))))))))))))) := by
      simp only [to_md, md_header, md_body, md_footer, List.isEmpty_cons,
        Bool.false_eq_true, if_false]
      simp only [List.append_assoc, List.cons_append, List.nil_append, List.append_nil, List.singleton_append]
    have hlines : pySplitlines (to_md ⟨nm, S, fn, T, st, D, k0 :: ks, C⟩) =
        ([("---").data, ("title: ").data ++ T, ("keywords:").data] ++ (((k0 :: ks).map (fun x => ("  - ").data ++ x)) ++ ([("---").data, [], ("import useBaseUrl from \x27@docusaurus/useBaseUrl\x27;").data, [], ("        ").data, []] ++ (splitChar '\n' D ++ [[], (("<div className=\x27cover\x27 style=\x7b\x7b backgroundImage: \x27url(\x27 + require(\x27./assets/").data ++ (S ++ (".png\x27).default + \x27)\x27 \x7d\x7d />").data)), []])))) ++
          (("```py").data :: (splitChar '\n' C ++
            (("```").data :: pySplitlines (("        ").data ++ md_footer ⟨nm, S, fn, T, st, D, k0 :: ks, C⟩)))) := by
      rw [hpage]
      rw [pySplitlines_chunk ("---").data _ (by decide)]
      rw [pySplitlines_chunk (("title: ").data ++ T) _ hT]
      rw [pySplitlines_chunk (("keywords:").data) _ (by decide)]
      rw [pySplitlines_append_nl (joinSep ['\n'] ((k0 :: ks).map (fun x => ("  - ").data ++ x))) _ hKWonly]
      rw [hKWlines]
      rw [pySplitlines_chunk ("---").data _ (by decide)]
      rw [pySplitlines_break_nl]
      rw [pySplitlines_chunk ("import useBaseUrl from \x27@docusaurus/useBaseUrl\x27;").data _ (by decide)]
      rw [pySplitlines_break_nl]
      rw [pySplitlines_chunk ("        ").data _ (by decide)]
      rw [pySplitlines_suffix S D C (("        ").data ++ md_footer ⟨nm, S, fn, T, st, D, k0 :: ks, C⟩) hs hd hc]
      simp [List.append_assoc]
    refine extractFence_of_lines hlines ?_ hcf
    intro l hl
    rcases List.mem_append.1 hl with h | h
    · simp only [List.mem_cons, List.mem_singleton] at h
      rcases h with h | h | h
      · subst h; decide
      · subst h; exact cons_head_append_ne _ _ _ (by decide)
      · simp at h
        subst h; decide
    · rcases List.mem_append.1 h with h | h
      · rw [List.mem_map] at h
        obtain ⟨k, _, hpk⟩ := h
        subst hpk
        exact cons_head_append_ne _ _ _ (by decide)
      · rcases List.mem_append.1 h with h | h
        · simp only [List.mem_cons, List.mem_singleton] at h
          rcases h with h | h | h | h | h | h
          · subst h; decide
          · subst h; decide
          · subst h; decide
          · subst h; decide
          · subst h; decide
          · simp at h
            subst h; decide
        · rcases List.mem_append.1 h with h | h
          · exact hdpy l h
          · simp only [List.mem_cons, List.mem_singleton] at h
            rcases h with h | h | h
            · subst h; decide
            · subst h; exact cons_head_append_ne _ _ _ (by decide)
            · simp at h
              subst h; decide

end ExtractMain

/-- C2 (corrected): parsing, rendering, then re-extracting the fenced code
block returns the original code body — PROVIDED the filename has no line
break, the code body uses only `\n` line breaks and none of its lines is a
closing fence ```` ``` ````, and no description line is ```` ```py ````.
Without the fence proviso the claim fails: a code body containing a ``` line
closes the markdown fence early (see the counterexample). -/
theorem c2_code_roundtrip : ∀ (filename contents : List Char) (e : Example),
    load_example filename contents = some e →
    (∀ c ∈ filename, lineBreakChar c = false) →
    (∀ ch ∈ e.code, lineBreakChar ch = true → ch = '\n') →
    (∀ l ∈ splitChar '\n' e.code, l ≠ ("```").data) →
    (∀ l ∈ splitChar '\n' e.description, l ≠ ("```py").data) →
    extractFence (to_md e) = some e.code := by
  intro filename contents e h hf hcode hcf hdpy
  obtain ⟨pre, post, h0, rest, hsp, hh, hlen, he⟩ := load_example_some h
  subst he
  have hmem0 : h0 ∈ pySplitlines (pyStrip pre) := by
    rw [hh]
    simp
  have hbfh0 : ∀ c ∈ h0, lineBreakChar c = false :=
    pySplitlines_breakFree (pyStrip pre) h0 hmem0
  have hDLbf : ∀ l ∈ rest.map strip_comment, ∀ c ∈ l, lineBreakChar c = false := by
    intro l hl c hc
    rw [List.mem_map] at hl
    obtain ⟨r, hr, rfl⟩ := hl
    have hrmem : r ∈ pySplitlines (pyStrip pre) := by
      rw [hh]
      exact List.mem_cons_of_mem _ hr
    exact pySplitlines_breakFree (pyStrip pre) r hrmem c (mem_stripChars hc)
  refine extract_to_md_mk _ _ _ _ _ _ _ _ ?_ ?_ ?_ ?_ hdpy hcode hcf
  · intro c hc
    exact hbfh0 c (mem_stripChars hc)
  · intro c hc
    simp only [pyReplaceChar, List.mem_map] at hc
    obtain ⟨c0, hc0, hceq⟩ := hc
    by_cases hund : c0 = '_'
    · rw [if_pos hund] at hceq
      subst hceq
      decide
    · rw [if_neg hund] at hceq
      subst hceq
      exact hf c0 (mem_pySplitext_fst hc0)
  · intro k hkm c hc
    simp only [get_keywords_if_available] at hkm
    split at hkm
    · simp at hkm
    · rw [List.mem_map] at hkm
      obtain ⟨piece, hpiece, rfl⟩ := hkm
      have hcpiece := mem_splitChar hpiece c (mem_stripChars hc)
      have hkwmem : (rest.map strip_comment).getD ((rest.map strip_comment).length - 2) [] ∈
          rest.map strip_comment :=
        getD_mem _ _ (by
          rw [List.length_map]
          omega)
      exact hDLbf _ hkwmem c hcpiece
  · intro ch hch hbr
    rcases mem_joinSep hch with h | ⟨piece, hpiece, hcp⟩
    · exact h
    · exact absurd hbr (by simp [hDLbf piece hpiece ch hcp])

set_option maxRecDepth 100000 in
/-- C2 witness: the round trip on a concrete well-formed example file with a
keyword line and the code body `print(1)`. -/
theorem c2_code_roundtrip_witness :
    extractFence (to_md (Example.make ("f.py").data (("T").data) (("d\ntag\ne").data)
      [("tag").data] (("print(1)").data))) = some (("print(1)").data) :=
  c2_code_roundtrip ("f.py").data (("# T\n# d\n# tag\n# e\n---\nprint(1)").data)
    (Example.make ("f.py").data (("T").data) (("d\ntag\ne").data)
      [("tag").data] (("print(1)").data))
    (by decide) (by decide) (by decide) (by decide) (by decide)

set_option maxRecDepth 100000 in
/-- C2 counterexample: a valid example file whose code body contains a
```` ``` ```` line.  Parsing succeeds with code `x\n```\ny`, but rendering and
re-extracting the fenced block returns only `x`, so the round trip of the
claim, as stated for every valid example text, fails. -/
theorem c2_fence_line_counterexample :
    (load_example ("f.py").data (("# t\n# a\n# b\n---\nx\n```\ny").data)).map
      (fun e => (e.code, extractFence (to_md e))) =
      some ((("x\n```\ny").data, some (("x").data))) ∧
    ("x").data ≠ ("x\n```\ny").data := by
  constructor
  · decide
  · decide
